import Mathlib

/-!
Shallow embedding of `lib/keystroke.c` (quagga keystroke buffering).

Bytes are modelled as `Nat` (every value put into the machine by the parser
is `< 0x100`); the byte FIFO `vio_fifo` is modelled as a `List Nat` (append
at the tail, read from the head); the fixed C arrays `raw[keystroke_max_len]`
are modelled as total functions `Nat → Nat` updated only at the indices the
source writes, so that the bounded-write discipline of the source is
observable.  Fallible operations (`keystroke_get`, which aborts via
`passert`/`zabort` on a corrupt FIFO) return `Option`.
-/

namespace KeystrokeModel

/-- Modelled from the spec: the constants below live in `keystroke.h`, which is
not among the provided sources.  Spec §3 fixes the FIFO record layout (bit 7
compound, bit 6 reserved, bit 5 broken, bit 4 truncated, bits 3..0 the type
tag, with the types listed in the order null, char, esc, csi, iac), §6 fixes
the telnet byte constants, and constrains the buffer bound `KMAX` only to be
at least 6; we fix it at 8. -/
def keystroke_max_len : Nat := 8

def kf_compound : Nat := 0x80

def kf_broken : Nat := 0x20

def kf_truncated : Nat := 0x10

def kf_type_mask : Nat := 0x0F

def ks_null : Nat := 0

def ks_char : Nat := 1

def ks_esc : Nat := 2

def ks_csi : Nat := 3

def ks_iac : Nat := 4

/-- Modelled from the spec: `null` events carry a sub-value distinguishing
`not_eof` from `eof` (spec §3); the numeric values are not observable in any
claim, we fix them as 0 and 1. -/
def knull_not_eof : Nat := 0

def knull_eof : Nat := 1

def tn_IAC : Nat := 0xFF

def tn_SB : Nat := 250

def tn_SE : Nat := 240

/-- The `enum stream_state` of the source. -/
inductive StreamState where
  | kst_null
  | kst_char
  | kst_esc
  | kst_csi
  | kst_iac_option
  | kst_iac_sub
deriving DecidableEq

/-- The `struct keystroke_state` of the source: an in-progress sequence
descriptor.  `raw` models the C array `uint8_t raw[keystroke_max_len]`;
all cells start at 0 and are updated pointwise. -/
structure KSState where
  state : StreamState
  len : Nat
  raw : Nat → Nat

/-- The `struct keystroke_stream` of the source. -/
structure KStream where
  fifo : List Nat
  CSI : Nat
  eof_met : Bool
  steal_this : Bool
  iac : Bool
  in_ : KSState
  pushed_in : KSState

/-- A keystroke event as produced by the fetch path (`keystroke_get`).  The
fetch path writes `buf` contiguously from index 0, so `buf` is the list of
bytes it wrote (the source leaves the rest of the caller's fixed buffer
untouched, which is not observable through the event). -/
structure Keystroke where
  type : Nat
  value : Nat
  flags : Nat
  len : Nat
  buf : List Nat
deriving DecidableEq

/-- A keystroke event as written into the caller's steal slot by
`keystroke_steal_char` / `keystroke_steal_esc` / `keystroke_steal_csi` /
`keystroke_set_null`.  Unlike the fetch path, `keystroke_steal_csi` does not
write the slot's buffer contiguously (it writes indices `0..len-2` and index
`len`, skipping `len-1`), so here `buf i = some v` means the operation wrote
byte `v` at index `i` and `buf i = none` means it left index `i` untouched. -/
structure StealKeystroke where
  type : Nat
  value : Nat
  flags : Nat
  len : Nat
  buf : Nat → Option Nat

/-- The state of the local `steal` pointer across `keystroke_input`'s loop:
`noSlot` is a NULL `steal` argument; `armed` is a non-NULL slot not yet
written; `taken k` is a slot that received the stolen keystroke `k` (the
source then sets the local pointer to NULL). -/
inductive SlotSt where
  | noSlot
  | armed
  | taken (k : StealKeystroke)

def SlotSt.isArmed : SlotSt → Bool
  | .armed => true
  | _ => false

def keystroke_state_zero : KSState :=
  { state := .kst_null, len := 0, raw := fun _ => 0 }

/-- `keystroke_stream_new`: XCALLOC zeroises everything; the CSI byte is
`csi_char` unless that is 0, in which case 0x1B. -/
def keystroke_stream_new (csi_char : Nat) : KStream :=
  { fifo := []
    CSI := if csi_char ≠ 0 then csi_char else 0x1B
    eof_met := false
    steal_this := false
    iac := false
    in_ := keystroke_state_zero
    pushed_in := keystroke_state_zero }

/-- `keystroke_add_raw`: write `u` at index `in.len` only when
`in.len < keystroke_max_len`; always increment `in.len`. -/
def keystroke_add_raw (s : KStream) (u : Nat) : KStream :=
  let s :=
    if s.in_.len < keystroke_max_len then
      { s with in_ := { s.in_ with raw := Function.update s.in_.raw s.in_.len u } }
    else s
  { s with in_ := { s.in_ with len := s.in_.len + 1 } }

/-- `keystroke_put`: store `<first> <len> [<bytes>]` in the FIFO, clamping the
length to `keystroke_max_len` and setting `kf_truncated` when it overflows.
`p i` is the byte at offset `i` of the C payload pointer. -/
def keystroke_put (s : KStream) (ty : Nat) (broken : Bool) (p : Nat → Nat) (len : Nat) :
    KStream :=
  let lt := if keystroke_max_len < len then (keystroke_max_len, ty ||| kf_truncated)
            else (len, ty)
  { s with fifo := s.fifo
      ++ (kf_compound ||| (if broken then kf_broken else 0) ||| lt.2)
      :: lt.1 :: (List.range lt.1).map p }

/-- Big-endian bytes of `u`, least significant last, leading zero bytes
stripped, at least one byte: the `do { *(--p) = u & 0xFF ; u >>= 8 ; }
while (u != 0)` loop of `keystroke_put_char`.  The loop body runs at most
four times because `u` is a `uint32_t` in the source, so a structural fuel
of 4 covers the whole domain. -/
def beBytesGo : Nat → Nat → List Nat
  | 0, _ => []
  | fuel + 1, u =>
      if u < 0x100 then [u % 0x100] else beBytesGo fuel (u / 0x100) ++ [u % 0x100]

def beBytes (u : Nat) : List Nat := beBytesGo 4 u

/-- `keystroke_put_char`: a value below 0x80 goes into the FIFO as a single
raw byte; otherwise a compound `ks_char` record with the big-endian bytes. -/
def keystroke_put_char (s : KStream) (u : Nat) : KStream :=
  if u < 0x80 then { s with fifo := s.fifo ++ [u] }
  else keystroke_put s ks_char false (fun i => (beBytes u).getD i 0) (beBytes u).length

/-- `keystroke_put_esc`: broken iff the length (after the ESC) is 0. -/
def keystroke_put_esc (s : KStream) (u : Nat) (len : Nat) : KStream :=
  keystroke_put s ks_esc (len = 0) (fun _ => u) len

/-- `keystroke_put_csi`: payload is `in.raw` for `in.len` bytes; broken iff
the terminator `u` is 0. -/
def keystroke_put_csi (s : KStream) (u : Nat) : KStream :=
  keystroke_put s ks_csi (u = 0) s.in_.raw s.in_.len

/-- `keystroke_put_iac`: broken iff the length (after the IAC) is 0. -/
def keystroke_put_iac (s : KStream) (u : Nat) (len : Nat) : KStream :=
  keystroke_put s ks_iac (len = 0) (fun _ => u) len

/-- `keystroke_put_iac_long`: emit the accumulated raw bytes as a `ks_iac`
record, then pop `pushed_in` into `in` and mark `pushed_in` idle. -/
def keystroke_put_iac_long (s : KStream) (broken : Bool) : KStream :=
  let s := keystroke_put s ks_iac broken s.in_.raw s.in_.len
  { s with in_ := s.pushed_in, pushed_in := { s.pushed_in with state := .kst_null } }

/-- `keystroke_steal_char` (the `stream` argument of the source is unused). -/
def keystroke_steal_char (u : Nat) : StealKeystroke :=
  { type := ks_char, value := u, flags := 0, len := 1
    buf := fun i => if i = 0 then some u else none }

/-- `keystroke_steal_esc` (the `stream` argument of the source is unused). -/
def keystroke_steal_esc (u : Nat) : StealKeystroke :=
  { type := ks_esc, value := u, flags := 0, len := 1
    buf := fun i => if i = 0 then some u else none }

/-- `keystroke_steal_csi`: with `len = stream->in.len` (terminator included)
the source sets `type = ks_esc`, `value = u`, `len = len - 1`, copies the
`len - 1` parameter bytes to `buf[0..len-2]` and writes a 0 at `buf[len]`
(note: at index `len`, not `len - 1` — index `len - 1` is left untouched). -/
def keystroke_steal_csi (s : KStream) (u : Nat) : StealKeystroke :=
  let len := s.in_.len
  { type := ks_esc, value := u, flags := 0, len := len - 1
    buf := fun i =>
      if i < len - 1 then some (s.in_.raw i)
      else if i = len then some 0
      else none }

/-- `keystroke_set_null` result for a steal slot: type `ks_null`, value
`knull_eof` iff the stream has met EOF; the slot's buffer is not written. -/
def keystroke_set_null (s : KStream) : StealKeystroke :=
  { type := ks_null
    value := if s.eof_met then knull_eof else knull_not_eof
    flags := 0, len := 0, buf := fun _ => none }

/-- The `if (stream->iac) { ... }` dispatch block of `keystroke_input`
(entered with `stream->iac` already cleared).  The third component of the
result is the byte the source puts back with `--ptr`, if any.  The `zabort`
arms (`kst_char`, `kst_iac_option`) are unreachable and modelled as the
identity. -/
def keystroke_input_iac (s : KStream) (sl : SlotSt) (u : Nat) :
    KStream × SlotSt × Option Nat :=
  match s.in_.state with
  | .kst_null | .kst_esc | .kst_csi =>
      if u < tn_SB then (keystroke_put_iac s u 1, sl, none)
      else
        ({ s with pushed_in := s.in_
                  in_ := { state := .kst_iac_option, len := 1
                           raw := Function.update s.in_.raw 0 u } }, sl, none)
  | .kst_iac_sub =>
      if u ≠ tn_SE then (keystroke_put_iac_long { s with iac := true } true, sl, some u)
      else (keystroke_put_iac_long s false, sl, none)
  | .kst_char | .kst_iac_option => (s, sl, none)

/-- The main `switch (stream->in.state)` of `keystroke_input` (no IAC
pending).  The `zabort` arm `kst_char` is unreachable and modelled as the
identity. -/
def keystroke_input_normal (s : KStream) (sl : SlotSt) (u : Nat) :
    KStream × SlotSt × Option Nat :=
  match s.in_.state with
  | .kst_null =>
      let s := { s with steal_this := sl.isArmed }
      if u = 0x1B then
        ({ s with in_ := { s.in_ with state := .kst_esc } }, sl, none)
      else if u = s.CSI then
        ({ s with in_ := { s.in_ with len := 0, state := .kst_csi } }, sl, none)
      else if ¬ s.steal_this then
        let s := keystroke_put_char s u
        ({ s with in_ := { s.in_ with state := .kst_null } }, sl, none)
      else
        ({ s with steal_this := false, in_ := { s.in_ with state := .kst_null } },
         SlotSt.taken (keystroke_steal_char u), none)
  | .kst_char => (s, sl, none)
  | .kst_esc =>
      if u = 0x5B then
        ({ s with in_ := { s.in_ with len := 0, state := .kst_csi } }, sl, none)
      else if ¬ s.steal_this then
        let s := keystroke_put_esc s u 1
        ({ s with in_ := { s.in_ with state := .kst_null } }, sl, none)
      else
        ({ s with steal_this := false, in_ := { s.in_ with state := .kst_null } },
         SlotSt.taken (keystroke_steal_esc u), none)
  | .kst_csi =>
      if 0x20 ≤ u ∧ u ≤ 0x3F then (keystroke_add_raw s u, sl, none)
      else
        let bad := u < 0x40 ∨ 0x7F < u
        let pb : Option Nat := if bad then some u else none
        let s := if bad then { s with iac := u = tn_IAC } else s
        let u' := if bad then 0 else u
        let l := s.in_.len
        let s := { s with in_ := { s.in_ with len := l + 1 } }
        let lw := if keystroke_max_len ≤ l then keystroke_max_len - 1 else l
        let ok : Bool := if keystroke_max_len ≤ l then false else ¬ bad
        let s := { s with in_ := { s.in_ with raw := Function.update s.in_.raw lw u' } }
        if ¬ s.steal_this ∨ ¬ ok then
          let s := keystroke_put_csi s u'
          ({ s with in_ := { s.in_ with state := .kst_null } }, sl, pb)
        else
          ({ s with steal_this := false, in_ := { s.in_ with state := .kst_null } },
           SlotSt.taken (keystroke_steal_csi s u'), pb)
  | .kst_iac_option =>
      let s := keystroke_add_raw s u
      if s.in_.raw 0 = tn_SB then
        ({ s with in_ := { s.in_ with state := .kst_iac_sub } }, sl, none)
      else (keystroke_put_iac_long s false, sl, none)
  | .kst_iac_sub => (keystroke_add_raw s u, sl, none)

/-- One iteration of the byte loop of `keystroke_input`: the leading IAC
test (`u == tn_IAC && state != kst_iac_option`), then either the IAC
dispatch block or the normal dispatch.  When IAC IAC resolves to a literal
0xFF the source clears `iac` and falls through to the normal dispatch. -/
def keystroke_input_step (s : KStream) (sl : SlotSt) (u : Nat) :
    KStream × SlotSt × Option Nat :=
  if u = tn_IAC ∧ s.in_.state ≠ .kst_iac_option then
    if s.iac then keystroke_input_normal { s with iac := false } sl u
    else ({ s with iac := true }, sl, none)
  else if s.iac then keystroke_input_iac { s with iac := false } sl u
  else keystroke_input_normal s sl u

/-- The `while (ptr < end)` loop of `keystroke_input`.  A put-back byte
(`--ptr` in the source) is immediately reprocessed; the second processing of
a put-back byte never itself puts the byte back (a put-back from the CSI arm
leaves `in.state = kst_null`, and one from the `kst_iac_sub` arm pops
`pushed_in`, whose state is only ever null/esc/csi, with `u ≠ IAC, SE`), so
after the second step the loop moves on, exactly as the source does. -/
def keystroke_input_loop (s : KStream) (sl : SlotSt) :
    List Nat → KStream × SlotSt
  | [] => (s, sl)
  | u :: rest =>
      let r := keystroke_input_step s sl u
      match r.2.2 with
      | none => keystroke_input_loop r.1 r.2.1 rest
      | some v =>
          let r2 := keystroke_input_step r.1 r.2.1 v
          keystroke_input_loop r2.1 r2.2.1 rest

/-- One iteration of the EOF flush loop (`while (stream->in.state !=
kst_null)`): esc and csi sequences are emitted broken and the state reset;
IAC sequences are emitted broken via `keystroke_put_iac_long`, which pops
`pushed_in`.  Identity on `kst_null` (loop exit) and on the unreachable
`zabort` arm `kst_char`. -/
def keystroke_eof_flush_one (s : KStream) : KStream :=
  match s.in_.state with
  | .kst_esc =>
      let s := keystroke_put_esc s 0 0
      { s with in_ := { s.in_ with state := .kst_null } }
  | .kst_csi =>
      let s := keystroke_put_csi s 0
      { s with in_ := { s.in_ with state := .kst_null } }
  | .kst_iac_option | .kst_iac_sub => keystroke_put_iac_long s true
  | .kst_null | .kst_char => s

/-- The EOF flush loop terminates after at most two iterations, because
`pushed_in.state` is only ever null, esc or csi (it is saved only from those
states), and flushing esc or csi does not push anything; so two applications
of the loop body are the whole loop. -/
def keystroke_eof_flush (s : KStream) : KStream :=
  keystroke_eof_flush_one (keystroke_eof_flush_one s)

/-- The EOF branch of `keystroke_input` (`len == 0 && ptr == NULL`): set
`eof_met`, clear `steal_this`, emit a broken zero-length IAC if an IAC was
pending with no sequence in progress, then flush any partial sequence. -/
def keystroke_eof_signal (s : KStream) : KStream :=
  let s := { s with eof_met := true, steal_this := false }
  let s := if s.iac ∧ s.in_.state = .kst_null then keystroke_put_iac s 0 0 else s
  keystroke_eof_flush s

/-- Final write to the caller's slot when `keystroke_input` returns: a NULL
slot gets nothing, an untaken slot gets the `ks_null` stroke, a taken slot
keeps the stolen keystroke. -/
def SlotSt.finish (s3 : KStream) : SlotSt → Option StealKeystroke
  | .noSlot => none
  | .armed => some (keystroke_set_null s3)
  | .taken k => some k

/-- `keystroke_input`.  `bytes = none` is the EOF signal (`ptr == NULL`,
`len == 0`); `wantSteal` is whether the caller passed a steal slot.  The
second component is the final contents of the caller's slot: `none` when no
slot was passed, otherwise the stolen keystroke or the `ks_null` event set
by `keystroke_set_null`. -/
def keystroke_input (s0 : KStream) (bytes : Option (List Nat)) (wantSteal : Bool) :
    KStream × Option StealKeystroke :=
  let s1 := match bytes with
            | none => keystroke_eof_signal s0
            | some _ => s0
  let s2 := if ¬ wantSteal then { s1 with steal_this := false }
            else { s1 with steal_this := s1.in_.state = .kst_null }
  let data := match bytes with
              | none => []
              | some bs => if s2.eof_met then [] else bs
  let r := keystroke_input_loop s2 (if wantSteal then .armed else .noSlot) data
  (r.1, SlotSt.finish r.1 r.2)

/-- `keystroke_get`.  Returns `none` exactly where the source aborts
(`passert` FIFO underflow mid-record, `zabort` on `ks_null` or an unknown
type in the FIFO, failed `assert` on a char/esc length).  An empty FIFO is
not an abort: it yields the `ks_null` stroke (`return 0` in the source). -/
def keystroke_get (s : KStream) : Option (KStream × Keystroke) :=
  match s.fifo with
  | [] =>
      some (s, { type := ks_null
                 value := if s.eof_met then knull_eof else knull_not_eof
                 flags := 0, len := 0, buf := [] })
  | b :: rest =>
      if b &&& kf_compound = 0 then
        some ({ s with fifo := rest },
              { type := ks_char, value := b, flags := 0, len := 1, buf := [b] })
      else
        match rest with
        | [] => none
        | l :: rest2 =>
            if rest2.length < l then none
            else
              let p := rest2.take l
              let s' := { s with fifo := rest2.drop l }
              let ty := b &&& kf_type_mask
              let fl := b &&& (kf_broken ||| kf_truncated)
              if ty = ks_null then none
              else if ty = ks_char then
                if fl = 0 then
                  if l = 0 ∨ 4 < l then none
                  else some (s', { type := ty, flags := fl, len := l, buf := p
                                   value := p.foldl (fun a c => a * 256 + c) 0 })
                else some (s', { type := ty, value := 0, flags := fl, len := l, buf := p })
              else if ty = ks_esc then
                if l = 1 then
                  some (s', { type := ty, value := p.headD 0, flags := fl, len := 1, buf := p })
                else if l = 0 then
                  some (s', { type := ty, value := 0, flags := fl, len := 0, buf := [] })
                else none
              else if ty = ks_csi then
                if l ≠ 0 then
                  some (s', { type := ty, value := p.getLastD 0, flags := fl, len := l - 1
                              buf := p.dropLast ++ [0] })
                else some (s', { type := ty, value := 0, flags := fl, len := 0, buf := [0] })
              else if ty = ks_iac then
                some (s', { type := ty, value := p.headD 0, flags := fl, len := l, buf := p })
              else none

/-- Repeated fetch: pop events until the `ks_null` stroke.  The fuel is an
upper bound on the number of events; each event consumes at least one FIFO
byte, so `fifo.length + 1` always suffices. -/
def keystroke_fetch_go : Nat → KStream → Option (List Keystroke)
  | 0, s => if s.fifo = [] then some [] else none
  | fuel + 1, s =>
      match keystroke_get s with
      | none => none
      | some (s', k) =>
          if k.type = ks_null then some []
          else
            match keystroke_fetch_go fuel s' with
            | none => none
            | some ks => some (k :: ks)

/-- Event sequence currently in the stream, by repeated `keystroke_get`. -/
def keystroke_fetch_all (s : KStream) : Option (List Keystroke) :=
  keystroke_fetch_go (s.fifo.length + 1) s

/-- Feed one chunk of bytes to a fresh stream (default CSI), no steal slot. -/
def runFresh (bytes : List Nat) : KStream :=
  (keystroke_input (keystroke_stream_new 0) (some bytes) false).1

/-- Feed one chunk of bytes to a fresh stream, then signal EOF. -/
def runFreshEof (bytes : List Nat) : KStream :=
  (keystroke_input (runFresh bytes) none false).1

/-- Feed a list of chunks in order, no steal slot. -/
def runChunks (s : KStream) (chunks : List (List Nat)) : KStream :=
  chunks.foldl (fun s ch => (keystroke_input s (some ch) false).1) s

/-- Run an arbitrary sequence of `keystroke_input` calls: each call carries
its byte argument (`none` = EOF signal) and whether a steal slot is passed. -/
def runCalls (s : KStream) : List (Option (List Nat) × Bool) → KStream
  | [] => s
  | cl :: rest => runCalls (keystroke_input s cl.1 cl.2).1 rest

/-- No byte is stored at or beyond index `keystroke_max_len` of either raw
buffer (cells there still hold their initial zero). -/
def RawBounded (s : KStream) : Prop :=
  (∀ i, keystroke_max_len ≤ i → s.in_.raw i = 0) ∧
  (∀ i, keystroke_max_len ≤ i → s.pushed_in.raw i = 0)

/-- A slot value is pure: if it holds a stolen keystroke, that keystroke
carries no broken/truncated flag and is not an IAC event. -/
def SlotOK (sl : SlotSt) : Prop :=
  ∀ k, sl = .taken k → k.flags = 0 ∧ k.type ≠ ks_iac

/-- Example stream for the C6 witness: mid-CSI with nine parameter bytes
accumulated (one more than `keystroke_max_len`). -/
def c6_example_stream : KStream :=
  { fifo := [], CSI := 0x1B, eof_met := false, steal_this := false, iac := false
    in_ := { state := .kst_csi, len := 9, raw := fun i => if i < 9 then 0x30 else 0 }
    pushed_in := keystroke_state_zero }

/-! ## FIFO well-formedness -/

/-- Header byte of a compound FIFO record with type `ty`, broken flag `br`
and truncated flag `tr`, as written by `keystroke_put`. -/
def headerOf (br tr : Bool) (ty : Nat) : Nat :=
  kf_compound ||| (if br then kf_broken else 0) ||| (if tr then kf_truncated else 0) ||| ty

/-- Well-formedness of the FIFO byte list: a sequence of simple bytes
(below 0x80) and compound records, each record a header, a payload length
at most `keystroke_max_len`, and that many payload bytes; a `ks_char`
record is never broken or truncated and its payload is a single byte in
0x80..0xFF.  Every write the parser performs preserves this shape. -/
inductive FifoWF : List Nat → Prop where
  | nil : FifoWF []
  | simple (b : Nat) (rest : List Nat) : b < 0x80 → FifoWF rest → FifoWF (b :: rest)
  | comp (br tr : Bool) (ty : Nat) (p rest : List Nat) :
      1 ≤ ty → ty ≤ 4 → p.length ≤ keystroke_max_len →
      (ty = ks_char → br = false ∧ tr = false ∧ ∃ v, 0x80 ≤ v ∧ v < 0x100 ∧ p = [v]) →
      FifoWF rest →
      FifoWF (headerOf br tr ty :: p.length :: (p ++ rest))

/-- The flag bits a header with broken flag `br` and truncated flag `tr`
carries. -/
def flagsOf (br tr : Bool) : Nat :=
  (if br then kf_broken else 0) ||| (if tr then kf_truncated else 0)

/-- A well-formed char event: flags 0, length 1, a single-byte value and a
payload holding exactly that byte. -/
def charWF (ev : Keystroke) : Prop :=
  ev.flags = 0 ∧ ev.len = 1 ∧ ev.value < 0x100 ∧ ev.buf = [ev.value]

/-! ## Projection lemmas: which fields each operation leaves untouched -/

@[simp]
theorem keystroke_put_steal_this (s : KStream) (ty : Nat) (br : Bool) (p : Nat → Nat)
    (len : Nat) : (keystroke_put s ty br p len).steal_this = s.steal_this := rfl

@[simp]
theorem keystroke_put_eof_met (s : KStream) (ty : Nat) (br : Bool) (p : Nat → Nat)
    (len : Nat) : (keystroke_put s ty br p len).eof_met = s.eof_met := rfl

@[simp]
theorem keystroke_put_iac_field (s : KStream) (ty : Nat) (br : Bool) (p : Nat → Nat)
    (len : Nat) : (keystroke_put s ty br p len).iac = s.iac := rfl

@[simp]
theorem keystroke_put_CSI (s : KStream) (ty : Nat) (br : Bool) (p : Nat → Nat)
    (len : Nat) : (keystroke_put s ty br p len).CSI = s.CSI := rfl

@[simp]
theorem keystroke_put_in (s : KStream) (ty : Nat) (br : Bool) (p : Nat → Nat)
    (len : Nat) : (keystroke_put s ty br p len).in_ = s.in_ := rfl

@[simp]
theorem keystroke_put_pushed_in (s : KStream) (ty : Nat) (br : Bool) (p : Nat → Nat)
    (len : Nat) : (keystroke_put s ty br p len).pushed_in = s.pushed_in := rfl

@[simp]
theorem keystroke_put_char_steal_this (s : KStream) (u : Nat) :
    (keystroke_put_char s u).steal_this = s.steal_this := by
  unfold keystroke_put_char; split <;> rfl

@[simp]
theorem keystroke_put_char_eof_met (s : KStream) (u : Nat) :
    (keystroke_put_char s u).eof_met = s.eof_met := by
  unfold keystroke_put_char; split <;> rfl

@[simp]
theorem keystroke_put_char_iac_field (s : KStream) (u : Nat) :
    (keystroke_put_char s u).iac = s.iac := by
  unfold keystroke_put_char; split <;> rfl

@[simp]
theorem keystroke_put_char_CSI (s : KStream) (u : Nat) :
    (keystroke_put_char s u).CSI = s.CSI := by
  unfold keystroke_put_char; split <;> rfl

@[simp]
theorem keystroke_put_char_in (s : KStream) (u : Nat) :
    (keystroke_put_char s u).in_ = s.in_ := by
  unfold keystroke_put_char; split <;> rfl

@[simp]
theorem keystroke_put_char_pushed_in (s : KStream) (u : Nat) :
    (keystroke_put_char s u).pushed_in = s.pushed_in := by
  unfold keystroke_put_char; split <;> rfl

@[simp]
theorem keystroke_put_esc_steal_this (s : KStream) (u len : Nat) :
    (keystroke_put_esc s u len).steal_this = s.steal_this := rfl

@[simp]
theorem keystroke_put_esc_eof_met (s : KStream) (u len : Nat) :
    (keystroke_put_esc s u len).eof_met = s.eof_met := rfl

@[simp]
theorem keystroke_put_esc_iac_field (s : KStream) (u len : Nat) :
    (keystroke_put_esc s u len).iac = s.iac := rfl

@[simp]
theorem keystroke_put_esc_in (s : KStream) (u len : Nat) :
    (keystroke_put_esc s u len).in_ = s.in_ := rfl

@[simp]
theorem keystroke_put_esc_pushed_in (s : KStream) (u len : Nat) :
    (keystroke_put_esc s u len).pushed_in = s.pushed_in := rfl

@[simp]
theorem keystroke_put_csi_steal_this (s : KStream) (u : Nat) :
    (keystroke_put_csi s u).steal_this = s.steal_this := rfl

@[simp]
theorem keystroke_put_csi_eof_met (s : KStream) (u : Nat) :
    (keystroke_put_csi s u).eof_met = s.eof_met := rfl

@[simp]
theorem keystroke_put_csi_iac_field (s : KStream) (u : Nat) :
    (keystroke_put_csi s u).iac = s.iac := rfl

@[simp]
theorem keystroke_put_csi_in (s : KStream) (u : Nat) :
    (keystroke_put_csi s u).in_ = s.in_ := rfl

@[simp]
theorem keystroke_put_csi_pushed_in (s : KStream) (u : Nat) :
    (keystroke_put_csi s u).pushed_in = s.pushed_in := rfl

@[simp]
theorem keystroke_put_iac2_steal_this (s : KStream) (u len : Nat) :
    (keystroke_put_iac s u len).steal_this = s.steal_this := rfl

@[simp]
theorem keystroke_put_iac2_eof_met (s : KStream) (u len : Nat) :
    (keystroke_put_iac s u len).eof_met = s.eof_met := rfl

@[simp]
theorem keystroke_put_iac2_iac_field (s : KStream) (u len : Nat) :
    (keystroke_put_iac s u len).iac = s.iac := rfl

@[simp]
theorem keystroke_put_iac2_in (s : KStream) (u len : Nat) :
    (keystroke_put_iac s u len).in_ = s.in_ := rfl

@[simp]
theorem keystroke_put_iac2_pushed_in (s : KStream) (u len : Nat) :
    (keystroke_put_iac s u len).pushed_in = s.pushed_in := rfl

@[simp]
theorem keystroke_put_iac_long_steal_this (s : KStream) (br : Bool) :
    (keystroke_put_iac_long s br).steal_this = s.steal_this := rfl

@[simp]
theorem keystroke_put_iac_long_eof_met (s : KStream) (br : Bool) :
    (keystroke_put_iac_long s br).eof_met = s.eof_met := rfl

@[simp]
theorem keystroke_put_iac_long_iac_field (s : KStream) (br : Bool) :
    (keystroke_put_iac_long s br).iac = s.iac := rfl

@[simp]
theorem keystroke_put_iac_long_CSI (s : KStream) (br : Bool) :
    (keystroke_put_iac_long s br).CSI = s.CSI := rfl

@[simp]
theorem keystroke_put_iac_long_in (s : KStream) (br : Bool) :
    (keystroke_put_iac_long s br).in_ = s.pushed_in := rfl

@[simp]
theorem keystroke_put_iac_long_pushed_in (s : KStream) (br : Bool) :
    (keystroke_put_iac_long s br).pushed_in = { s.pushed_in with state := .kst_null } := rfl

@[simp]
theorem keystroke_add_raw_steal_this (s : KStream) (u : Nat) :
    (keystroke_add_raw s u).steal_this = s.steal_this := by
  unfold keystroke_add_raw; split <;> rfl

@[simp]
theorem keystroke_add_raw_eof_met (s : KStream) (u : Nat) :
    (keystroke_add_raw s u).eof_met = s.eof_met := by
  unfold keystroke_add_raw; split <;> rfl

@[simp]
theorem keystroke_add_raw_iac_field (s : KStream) (u : Nat) :
    (keystroke_add_raw s u).iac = s.iac := by
  unfold keystroke_add_raw; split <;> rfl

@[simp]
theorem keystroke_add_raw_CSI (s : KStream) (u : Nat) :
    (keystroke_add_raw s u).CSI = s.CSI := by
  unfold keystroke_add_raw; split <;> rfl

@[simp]
theorem keystroke_add_raw_fifo (s : KStream) (u : Nat) :
    (keystroke_add_raw s u).fifo = s.fifo := by
  unfold keystroke_add_raw; split <;> rfl

@[simp]
theorem keystroke_add_raw_pushed_in (s : KStream) (u : Nat) :
    (keystroke_add_raw s u).pushed_in = s.pushed_in := by
  unfold keystroke_add_raw; split <;> rfl

@[simp]
theorem keystroke_add_raw_state (s : KStream) (u : Nat) :
    (keystroke_add_raw s u).in_.state = s.in_.state := by
  unfold keystroke_add_raw; split <;> rfl

@[simp]
theorem keystroke_add_raw_len (s : KStream) (u : Nat) :
    (keystroke_add_raw s u).in_.len = s.in_.len + 1 := by
  unfold keystroke_add_raw; split <;> rfl

/-! ## Helper lemmas -/

theorem KStream.steal_this_set_eq (s : KStream) (h : s.steal_this = false) :
    ({ s with steal_this := false } : KStream) = s := by
  cases s
  simp_all

/-- The IAC dispatch block never touches the steal slot, `steal_this`,
or `eof_met`. -/
theorem keystroke_input_iac_ctl (s : KStream) (sl : SlotSt) (u : Nat) :
    (keystroke_input_iac s sl u).2.1 = sl ∧
    (keystroke_input_iac s sl u).1.steal_this = s.steal_this ∧
    (keystroke_input_iac s sl u).1.eof_met = s.eof_met := by
  unfold keystroke_input_iac
  cases h : s.in_.state <;> simp <;> split_ifs <;> simp

/-- The normal dispatch with a NULL slot and `steal_this` clear keeps the
slot absent, `steal_this` clear, and `eof_met` untouched. -/
theorem keystroke_input_normal_noSlot (s : KStream) (u : Nat)
    (hst : s.steal_this = false) :
    (keystroke_input_normal s .noSlot u).2.1 = .noSlot ∧
    (keystroke_input_normal s .noSlot u).1.steal_this = false ∧
    (keystroke_input_normal s .noSlot u).1.eof_met = s.eof_met := by
  unfold keystroke_input_normal
  cases h : s.in_.state <;> simp [SlotSt.isArmed, hst] <;> split_ifs <;> simp_all

/-- The `steal == NULL` run of the byte loop: the slot stays absent,
`steal_this` stays false, and `eof_met` is untouched, for a single step. -/
theorem keystroke_input_step_noSlot (s : KStream) (u : Nat) (hst : s.steal_this = false) :
    (keystroke_input_step s .noSlot u).2.1 = .noSlot ∧
    (keystroke_input_step s .noSlot u).1.steal_this = false ∧
    (keystroke_input_step s .noSlot u).1.eof_met = s.eof_met := by
  unfold keystroke_input_step
  split_ifs with h1 h2 h3
  · exact keystroke_input_normal_noSlot _ u hst
  · exact ⟨rfl, hst, rfl⟩
  · obtain ⟨a, b, c⟩ := keystroke_input_iac_ctl { s with iac := false } .noSlot u
    exact ⟨a, b.trans hst, c⟩
  · exact keystroke_input_normal_noSlot s u hst

/-- Splitting the input byte list splits the loop. -/
theorem keystroke_input_loop_append (a b : List Nat) :
    ∀ (s : KStream) (sl : SlotSt),
      keystroke_input_loop s sl (a ++ b) =
        keystroke_input_loop (keystroke_input_loop s sl a).1
          (keystroke_input_loop s sl a).2 b := by
  induction a with
  | nil => intro s sl; rfl
  | cons u rest ih =>
      intro s sl
      simp only [List.cons_append, keystroke_input_loop]
      cases h : (keystroke_input_step s sl u).2.2 with
      | none => exact ih _ _
      | some v => exact ih _ _

/-- The `steal == NULL` run of the byte loop, over a whole chunk. -/
theorem keystroke_input_loop_noSlot (bs : List Nat) :
    ∀ (s : KStream), s.steal_this = false →
      (keystroke_input_loop s .noSlot bs).2 = .noSlot ∧
      (keystroke_input_loop s .noSlot bs).1.steal_this = false ∧
      (keystroke_input_loop s .noSlot bs).1.eof_met = s.eof_met := by
  induction bs with
  | nil => intro s hst; exact ⟨rfl, hst, rfl⟩
  | cons u rest ih =>
      intro s hst
      obtain ⟨hsl1, hst1, he1⟩ := keystroke_input_step_noSlot s u hst
      simp only [keystroke_input_loop]
      split
      · rw [hsl1]
        obtain ⟨a, b, c⟩ := ih _ hst1
        exact ⟨a, b, by rw [c, he1]⟩
      · rw [hsl1]
        obtain ⟨hsl2, hst2, he2⟩ :=
          keystroke_input_step_noSlot (keystroke_input_step s .noSlot u).1 _ hst1
        rw [hsl2]
        obtain ⟨a, b, c⟩ := ih _ hst2
        refine ⟨a, b, ?_⟩
        rw [c, he2, he1]

/-- `keystroke_input` with data and no steal slot is just the loop on the
stream with `steal_this` cleared. -/
theorem keystroke_input_some_false (s : KStream) (bs : List Nat) :
    keystroke_input s (some bs) false =
      ((keystroke_input_loop { s with steal_this := false } .noSlot
          (if s.eof_met then [] else bs)).1, none) := by
  have h := (keystroke_input_loop_noSlot (if s.eof_met then [] else bs)
      { s with steal_this := false } rfl).1
  show ((keystroke_input_loop { s with steal_this := false } .noSlot
          (if s.eof_met then [] else bs)).1,
        SlotSt.finish
          (keystroke_input_loop { s with steal_this := false } .noSlot
            (if s.eof_met then [] else bs)).1
          (keystroke_input_loop { s with steal_this := false } .noSlot
            (if s.eof_met then [] else bs)).2) = _
  rw [h]
  rfl

/-- `keystroke_input` on a stream that is not at EOF and has `steal_this`
already clear, with data and no slot, is exactly the byte loop. -/
theorem keystroke_input_some_clean (s : KStream) (bs : List Nat)
    (hst : s.steal_this = false) (he : s.eof_met = false) :
    keystroke_input s (some bs) false = ((keystroke_input_loop s .noSlot bs).1, none) := by
  rw [keystroke_input_some_false, KStream.steal_this_set_eq s hst, he]
  rfl

theorem runChunks_eq_join (chunks : List (List Nat)) :
    ∀ (s : KStream), s.steal_this = false → s.eof_met = false →
      runChunks s chunks = (keystroke_input s (some chunks.flatten) false).1 := by
  induction chunks with
  | nil =>
      intro s hst he
      show s = _
      rw [keystroke_input_some_clean s _ hst he]
      rfl
  | cons ch rest ih =>
      intro s hst he
      obtain ⟨hsl, hst1, he1⟩ := keystroke_input_loop_noSlot ch s hst
      show runChunks (keystroke_input s (some ch) false).1 rest = _
      rw [keystroke_input_some_clean s ch hst he]
      rw [ih _ hst1 (he1.trans he)]
      rw [keystroke_input_some_clean _ rest.flatten hst1 (he1.trans he)]
      rw [show (ch :: rest).flatten = ch ++ rest.flatten from rfl]
      rw [keystroke_input_some_clean s (ch ++ rest.flatten) hst he]
      rw [keystroke_input_loop_append ch rest.flatten s .noSlot, hsl]

theorem range_map_update (f : Nat → Nat) (n u : Nat) :
    (List.range (n + 1)).map (Function.update f n u) = (List.range n).map f ++ [u] := by
  rw [List.range_succ, List.map_append]
  congr 1
  · apply List.map_congr_left
    intro i hi
    rw [List.mem_range] at hi
    exact Function.update_noteq (Nat.ne_of_lt hi) u f
  · simp

/-- Completing a CSI with an in-band terminator byte (0x40..0x7F) while no
steal is pending: the terminator is planted (clamped to the last buffer cell
on overflow) and the record is emitted via `keystroke_put_csi`. -/
theorem keystroke_input_normal_csi_term (s : KStream) (u : Nat)
    (hcs : s.in_.state = .kst_csi) (hst : s.steal_this = false)
    (h1 : 0x40 ≤ u) (h2 : u ≤ 0x7F) :
    keystroke_input_normal s .noSlot u =
      ({ keystroke_put_csi
          { s with in_ := { s.in_ with
              len := s.in_.len + 1
              raw := Function.update s.in_.raw
                (if keystroke_max_len ≤ s.in_.len then keystroke_max_len - 1
                 else s.in_.len) u } } u
        with in_ := { s.in_ with
              state := .kst_null
              len := s.in_.len + 1
              raw := Function.update s.in_.raw
                (if keystroke_max_len ≤ s.in_.len then keystroke_max_len - 1
                 else s.in_.len) u } },
       .noSlot, none) := by
  have hA : ¬ (0x20 ≤ u ∧ u ≤ 0x3F) := by omega
  have hB : ¬ (u < 0x40 ∨ 0x7F < u) := by omega
  simp only [keystroke_input_normal, hcs, if_neg hA, if_neg hB, hst]
  split_ifs <;> simp_all [keystroke_put_csi]

/-- Fetching a well-delimited `ks_csi` record from the head of the FIFO. -/
theorem keystroke_get_csi_record (s : KStream) (hdr l : Nat) (p : List Nat)
    (hc : ¬ hdr &&& kf_compound = 0) (hty : hdr &&& kf_type_mask = ks_csi)
    (hl : p.length = l) (hl0 : ¬ l = 0) (hfifo : s.fifo = hdr :: l :: p) :
    keystroke_get s = some ({ s with fifo := [] },
      { type := ks_csi, value := p.getLastD 0
        flags := hdr &&& (kf_broken ||| kf_truncated)
        len := l - 1, buf := p.dropLast ++ [0] }) := by
  unfold keystroke_get
  rw [hfifo]
  simp only [if_neg hc, hl.symm, lt_irrefl, if_neg (lt_irrefl p.length), List.take_length,
    List.drop_length, hty]
  have h0 : ¬ ks_csi = ks_null := by decide
  have h1 : ¬ ks_csi = ks_char := by decide
  have h2 : ¬ ks_csi = ks_esc := by decide
  have h3 : p.length ≠ 0 := fun hq => hl0 ((hl.symm).trans hq)
  simp only [if_false, if_true, if_neg h0, if_neg h1, if_neg h2, if_pos h3]

theorem getLastD_append_single (l : List Nat) (b d : Nat) : (l ++ [b]).getLastD d = b := by
  simp

/-- With no IAC pending and a non-IAC byte, a step is just the normal
dispatch. -/
theorem keystroke_input_step_normal (s : KStream) (sl : SlotSt) (u : Nat)
    (hiac : s.iac = false) (hu : ¬ u = tn_IAC) :
    keystroke_input_step s sl u = keystroke_input_normal s sl u := by
  unfold keystroke_input_step
  rw [if_neg (fun hc => hu hc.1), if_neg (by simp [hiac])]

/-- The FIFO bytes appended by `keystroke_put_csi` for a non-NUL
terminator: truncated header and clamped payload when `in.len` overflows. -/
theorem keystroke_put_csi_fifo (s : KStream) (u : Nat) (hu : ¬ u = 0) :
    (keystroke_put_csi s u).fifo =
      if keystroke_max_len < s.in_.len then
        s.fifo ++ (0x80 ||| (ks_csi ||| kf_truncated)) :: keystroke_max_len ::
          (List.range keystroke_max_len).map s.in_.raw
      else s.fifo ++ (0x80 ||| ks_csi) :: s.in_.len ::
          (List.range s.in_.len).map s.in_.raw := by
  unfold keystroke_put_csi keystroke_put
  split_ifs <;> simp_all [kf_compound]

theorem update_bounded (f : Nat → Nat) (j u : Nat) (hj : j < keystroke_max_len)
    (hf : ∀ i, keystroke_max_len ≤ i → f i = 0) :
    ∀ i, keystroke_max_len ≤ i → Function.update f j u i = 0 := by
  intro i hi
  rw [Function.update_noteq (by omega)]
  exact hf i hi

theorem keystroke_add_raw_bounded (s : KStream) (u : Nat) (h : RawBounded s) :
    RawBounded (keystroke_add_raw s u) := by
  unfold keystroke_add_raw
  split_ifs with hlen
  · exact ⟨update_bounded s.in_.raw s.in_.len u hlen h.1, h.2⟩
  · exact h

theorem keystroke_put_iac_long_bounded (s : KStream) (br : Bool) (h : RawBounded s) :
    RawBounded (keystroke_put_iac_long s br) :=
  ⟨h.2, h.2⟩

theorem keystroke_input_normal_bounded (s : KStream) (sl : SlotSt) (u : Nat)
    (h : RawBounded s) : RawBounded (keystroke_input_normal s sl u).1 := by
  obtain ⟨h1, h2⟩ := h
  have hK0 : 0 < keystroke_max_len := by decide
  unfold keystroke_input_normal keystroke_add_raw
  split <;>
    refine ⟨fun i hi => ?_, fun i hi => ?_⟩ <;>
    (try split_ifs) <;>
    (try simp_all [Function.update_apply]) <;>
    (try split_ifs) <;>
    (try simp_all) <;>
    (try omega)
  all_goals
    (rw [Function.update_noteq (by omega)]
     first
       | exact h1 i hi
       | exact h2 i hi)

theorem keystroke_input_iac_bounded (s : KStream) (sl : SlotSt) (u : Nat)
    (h : RawBounded s) : RawBounded (keystroke_input_iac s sl u).1 := by
  obtain ⟨h1, h2⟩ := h
  have hK0 : 0 < keystroke_max_len := by decide
  unfold keystroke_input_iac
  split <;>
    refine ⟨fun i hi => ?_, fun i hi => ?_⟩ <;>
    (try split_ifs) <;>
    (try simp_all [Function.update_apply]) <;>
    (try split_ifs) <;>
    (try simp_all) <;>
    (try omega)

theorem keystroke_input_step_bounded (s : KStream) (sl : SlotSt) (u : Nat)
    (h : RawBounded s) : RawBounded (keystroke_input_step s sl u).1 := by
  unfold keystroke_input_step
  split_ifs
  · exact keystroke_input_normal_bounded _ sl u h
  · exact h
  · exact keystroke_input_iac_bounded _ sl u h
  · exact keystroke_input_normal_bounded s sl u h

theorem keystroke_input_loop_bounded (bs : List Nat) :
    ∀ (s : KStream) (sl : SlotSt), RawBounded s →
      RawBounded (keystroke_input_loop s sl bs).1 := by
  induction bs with
  | nil => intro s sl h; exact h
  | cons u rest ih =>
      intro s sl h
      simp only [keystroke_input_loop]
      split
      · exact ih _ _ (keystroke_input_step_bounded s sl u h)
      · exact ih _ _ (keystroke_input_step_bounded _ _ _
          (keystroke_input_step_bounded s sl u h))

theorem keystroke_eof_flush_one_bounded (s : KStream) (h : RawBounded s) :
    RawBounded (keystroke_eof_flush_one s) := by
  unfold keystroke_eof_flush_one
  split
  · exact h
  · exact h
  · exact keystroke_put_iac_long_bounded _ _ h
  · exact keystroke_put_iac_long_bounded _ _ h
  · exact h
  · exact h

theorem keystroke_eof_signal_bounded (s : KStream) (h : RawBounded s) :
    RawBounded (keystroke_eof_signal s) := by
  unfold keystroke_eof_signal keystroke_eof_flush
  refine keystroke_eof_flush_one_bounded _ (keystroke_eof_flush_one_bounded _ ?_)
  split_ifs <;> exact h

theorem keystroke_input_bounded (s : KStream) (bytes : Option (List Nat)) (w : Bool)
    (h : RawBounded s) : RawBounded (keystroke_input s bytes w).1 := by
  unfold keystroke_input
  cases bytes <;>
    (simp only []
     split_ifs <;>
       exact keystroke_input_loop_bounded _ _ _
         (by first | exact h | exact keystroke_eof_signal_bounded s h))

theorem runCalls_bounded (calls : List (Option (List Nat) × Bool)) :
    ∀ (s : KStream), RawBounded s → RawBounded (runCalls s calls) := by
  induction calls with
  | nil => intro s h; exact h
  | cons cl rest ih =>
      intro s h
      exact ih _ (keystroke_input_bounded s cl.1 cl.2 h)

theorem keystroke_input_iac_slot (s : KStream) (sl : SlotSt) (u : Nat) :
    (keystroke_input_iac s sl u).2.1 = sl := by
  unfold keystroke_input_iac
  split <;> (try split_ifs) <;> rfl

theorem keystroke_input_normal_slot (s : KStream) (sl : SlotSt) (u : Nat)
    (h : SlotOK sl) : SlotOK (keystroke_input_normal s sl u).2.1 := by
  unfold keystroke_input_normal
  split <;> (try simp only []) <;> (try split_ifs) <;> intro k hk <;>
    first
      | exact h k hk
      | (cases hk
         refine ⟨rfl, fun hq => ?_⟩
         simp [keystroke_steal_char, keystroke_steal_esc, keystroke_steal_csi,
           ks_char, ks_esc, ks_iac] at hq)

theorem keystroke_input_step_slot (s : KStream) (sl : SlotSt) (u : Nat)
    (h : SlotOK sl) : SlotOK (keystroke_input_step s sl u).2.1 := by
  unfold keystroke_input_step
  split_ifs
  · exact keystroke_input_normal_slot _ sl u h
  · exact h
  · rw [keystroke_input_iac_slot]
    exact h
  · exact keystroke_input_normal_slot s sl u h

theorem keystroke_input_loop_slot (bs : List Nat) :
    ∀ (s : KStream) (sl : SlotSt), SlotOK sl →
      SlotOK (keystroke_input_loop s sl bs).2 := by
  induction bs with
  | nil => intro s sl h; exact h
  | cons u rest ih =>
      intro s sl h
      simp only [keystroke_input_loop]
      split
      · exact ih _ _ (keystroke_input_step_slot s sl u h)
      · exact ih _ _ (keystroke_input_step_slot _ _ _
          (keystroke_input_step_slot s sl u h))

theorem keystroke_put_fifo_extend (s : KStream) (ty : Nat) (br : Bool) (p : Nat → Nat)
    (len : Nat) : ∃ rec, rec ≠ [] ∧ (keystroke_put s ty br p len).fifo = s.fifo ++ rec := by
  unfold keystroke_put
  exact ⟨_, by simp, rfl⟩

/-- Whatever arrives with a steal slot, the slot never receives a broken,
truncated or IAC event. -/
theorem keystroke_input_steal_pure (s : KStream) (bytes : Option (List Nat))
    (k : StealKeystroke) (hk : (keystroke_input s bytes true).2 = some k) :
    k.flags = 0 ∧ k.type ≠ ks_iac := by
  cases bytes with
  | none =>
      have heq : (keystroke_input s none true).2 =
          some (keystroke_set_null
            (keystroke_input_loop
              { keystroke_eof_signal s with
                steal_this := ((keystroke_eof_signal s).in_.state = .kst_null) }
              .armed []).1) := rfl
      rw [heq] at hk
      cases hk
      exact ⟨rfl, fun hq => by simp [keystroke_set_null, ks_null, ks_iac] at hq⟩
  | some bs =>
      have hs := keystroke_input_loop_slot (if s.eof_met then [] else bs)
        { s with steal_this := (s.in_.state = .kst_null) } .armed (fun k hk => by cases hk)
      have heq : (keystroke_input s (some bs) true).2 =
          SlotSt.finish
            (keystroke_input_loop { s with steal_this := (s.in_.state = .kst_null) } .armed
              (if s.eof_met then [] else bs)).1
            (keystroke_input_loop { s with steal_this := (s.in_.state = .kst_null) } .armed
              (if s.eof_met then [] else bs)).2 := rfl
      rw [heq] at hk
      rcases hsl : (keystroke_input_loop { s with steal_this := (s.in_.state = .kst_null) }
          .armed (if s.eof_met then [] else bs)).2 with _ | _ | k2
      · rw [hsl] at hk
        exact absurd hk (by simp [SlotSt.finish])
      · rw [hsl] at hk
        simp only [SlotSt.finish, Option.some.injEq] at hk
        rw [← hk]
        exact ⟨rfl, fun hq => by simp [keystroke_set_null, ks_null, ks_iac] at hq⟩
      · rw [hsl] at hk
        rw [hsl] at hs
        simp only [SlotSt.finish, Option.some.injEq] at hk
        rw [← hk]
        exact hs k2 rfl

/-- A CSI completion that is broken (byte outside 0x20..0x7F) or truncated
(`in.len` at the bound) is never stolen: the slot is left alone and the
record is appended to the FIFO. -/
theorem keystroke_input_normal_csi_refused (s : KStream) (sl : SlotSt) (u : Nat)
    (hcs : s.in_.state = .kst_csi) (hp : ¬ (0x20 ≤ u ∧ u ≤ 0x3F))
    (href : u < 0x40 ∨ 0x7F < u ∨ keystroke_max_len ≤ s.in_.len) :
    (keystroke_input_normal s sl u).2.1 = sl ∧
    ∃ rec, rec ≠ [] ∧ (keystroke_input_normal s sl u).1.fifo = s.fifo ++ rec := by
  simp only [keystroke_input_normal, hcs, if_neg hp]
  split_ifs <;>
    first
      | exact ⟨rfl, keystroke_put_fifo_extend _ _ _ _ _⟩
      | (exfalso; omega)
      | (exfalso; simp_all)

theorem land_0x80_eq_zero (b : Nat) (h : b < 0x80) : b &&& 0x80 = 0 := by
  apply Nat.eq_of_testBit_eq
  intro k
  rw [Nat.testBit_land]
  rcases eq_or_ne k 7 with rfl | hk
  · rw [Nat.testBit_lt_two_pow h]
    simp
  · have h2 : (0x80 : Nat).testBit k = false := by
      rw [show (0x80 : Nat) = 2 ^ 7 from rfl, Nat.testBit_two_pow_of_ne (Ne.symm hk)]
    simp [h2]

theorem headerOf_compound (br tr : Bool) (ty : Nat) (h1 : 1 ≤ ty) (h2 : ty ≤ 4) :
    ¬ headerOf br tr ty &&& kf_compound = 0 := by
  cases br <;> cases tr <;> interval_cases ty <;> decide

theorem headerOf_type (br tr : Bool) (ty : Nat) (h1 : 1 ≤ ty) (h2 : ty ≤ 4) :
    headerOf br tr ty &&& kf_type_mask = ty := by
  cases br <;> cases tr <;> interval_cases ty <;> decide

theorem headerOf_flags (br tr : Bool) (ty : Nat) (h1 : 1 ≤ ty) (h2 : ty ≤ 4) :
    headerOf br tr ty &&& (kf_broken ||| kf_truncated) = flagsOf br tr := by
  cases br <;> cases tr <;> interval_cases ty <;> decide

theorem FifoWF.append {a : List Nat} (ha : FifoWF a) :
    ∀ {b : List Nat}, FifoWF b → FifoWF (a ++ b) := by
  induction ha with
  | nil => intro b hb; exact hb
  | simple b' rest hb' hr ih =>
      intro b hb
      exact .simple b' (rest ++ b) hb' (ih hb)
  | comp br tr ty p rest h1 h2 h3 hchar hr ih =>
      intro b hb
      have hassoc : (headerOf br tr ty :: p.length :: (p ++ rest)) ++ b =
          headerOf br tr ty :: p.length :: (p ++ (rest ++ b)) := by simp
      rw [hassoc]
      exact .comp br tr ty p (rest ++ b) h1 h2 h3 hchar (ih hb)

theorem FifoWF.record (br tr : Bool) (ty : Nat) (p : List Nat) (l : Nat) (hdr : Nat)
    (hl : p.length = l) (h1 : 1 ≤ ty) (h2 : ty ≤ 4) (h3 : l ≤ keystroke_max_len)
    (hchar : ty = ks_char → br = false ∧ tr = false ∧ ∃ v, 0x80 ≤ v ∧ v < 0x100 ∧ p = [v])
    (hhdr : hdr = headerOf br tr ty) :
    FifoWF (hdr :: l :: p) := by
  subst hhdr
  subst hl
  have := FifoWF.comp br tr ty p [] h1 h2 h3 hchar .nil
  rwa [List.append_nil] at this

theorem lor_shift_truncated (x ty : Nat) :
    x ||| (ty ||| kf_truncated) = x ||| kf_truncated ||| ty := by
  rw [Nat.lor_comm ty kf_truncated, Nat.lor_assoc]

theorem keystroke_put_other_wf (s : KStream) (ty : Nat) (br : Bool) (p : Nat → Nat)
    (len : Nat) (h1 : 2 ≤ ty) (h2 : ty ≤ 4) (hw : FifoWF s.fifo) :
    FifoWF (keystroke_put s ty br p len).fifo := by
  unfold keystroke_put
  by_cases hK : keystroke_max_len < len
  · rw [if_pos hK]
    refine hw.append (FifoWF.record br true ty _ _ _ (by simp) (by omega) h2
      (Nat.le_refl _) (fun hq => absurd (hq ▸ h1) (by decide)) ?_)
    simp [headerOf, lor_shift_truncated]
  · rw [if_neg hK]
    refine hw.append (FifoWF.record br false ty _ _ _ (by simp) (by omega) h2
      (by omega) (fun hq => absurd (hq ▸ h1) (by decide)) ?_)
    simp [headerOf]

theorem beBytes_byte (u : Nat) (hu : u < 0x100) : beBytes u = [u] := by
  unfold beBytes beBytesGo
  rw [if_pos hu, Nat.mod_eq_of_lt hu]

theorem keystroke_put_char_wf (s : KStream) (u : Nat) (hu : u < 0x100)
    (hw : FifoWF s.fifo) : FifoWF (keystroke_put_char s u).fifo := by
  unfold keystroke_put_char
  split_ifs with h8
  · exact hw.append (.simple u [] h8 .nil)
  · rw [beBytes_byte u hu]
    unfold keystroke_put
    rw [if_neg (by simp [keystroke_max_len])]
    refine hw.append (FifoWF.record false false ks_char [u] _ _ (by simp) (by decide)
      (by decide) (by simp [keystroke_max_len])
      (fun _ => ⟨rfl, rfl, u, by omega, hu, rfl⟩) (by simp [headerOf]))

theorem keystroke_input_normal_wf (s : KStream) (sl : SlotSt) (u : Nat)
    (hu : u < 0x100) (hw : FifoWF s.fifo) :
    FifoWF (keystroke_input_normal s sl u).1.fifo := by
  unfold keystroke_input_normal
  split <;> (try simp only []) <;> (try split_ifs) <;>
    first
      | exact hw
      | exact keystroke_put_char_wf _ u hu hw
      | exact keystroke_put_other_wf _ _ _ _ _ (by decide) (by decide) hw
      | (show FifoWF (keystroke_add_raw s u).fifo
         rw [keystroke_add_raw_fifo]
         exact hw)
      | exact keystroke_put_other_wf (keystroke_add_raw s u) _ _ _ _ (by decide) (by decide)
          (by rw [keystroke_add_raw_fifo]; exact hw)

theorem keystroke_input_iac_wf (s : KStream) (sl : SlotSt) (u : Nat)
    (hw : FifoWF s.fifo) :
    FifoWF (keystroke_input_iac s sl u).1.fifo := by
  unfold keystroke_input_iac
  split <;> (try simp only []) <;> (try split_ifs) <;>
    first
      | exact hw
      | exact keystroke_put_other_wf _ _ _ _ _ (by decide) (by decide) hw

theorem keystroke_input_step_wf (s : KStream) (sl : SlotSt) (u : Nat)
    (hu : u < 0x100) (hw : FifoWF s.fifo) :
    FifoWF (keystroke_input_step s sl u).1.fifo := by
  unfold keystroke_input_step
  split_ifs
  · exact keystroke_input_normal_wf _ sl u hu hw
  · exact hw
  · exact keystroke_input_iac_wf _ sl u hw
  · exact keystroke_input_normal_wf s sl u hu hw

theorem keystroke_input_step_pb (s : KStream) (sl : SlotSt) (u : Nat) :
    (keystroke_input_step s sl u).2.2 = none ∨
    (keystroke_input_step s sl u).2.2 = some u := by
  unfold keystroke_input_step keystroke_input_normal keystroke_input_iac
  split_ifs <;> (try split) <;> (try simp only []) <;> (try split_ifs) <;> simp

theorem keystroke_input_loop_wf (bs : List Nat) :
    ∀ (s : KStream) (sl : SlotSt), (∀ b ∈ bs, b < 0x100) → FifoWF s.fifo →
      FifoWF (keystroke_input_loop s sl bs).1.fifo := by
  induction bs with
  | nil => intro s sl _ hw; exact hw
  | cons u rest ih =>
      intro s sl hb hw
      have hu : u < 0x100 := hb u (by simp)
      have hrest : ∀ b ∈ rest, b < 0x100 := fun b hbm => hb b (by simp [hbm])
      simp only [keystroke_input_loop]
      split
      · exact ih _ _ hrest (keystroke_input_step_wf s sl u hu hw)
      · rename_i v hv
        have hvu : v = u := by
          rcases keystroke_input_step_pb s sl u with hq | hq
          · rw [hv] at hq; cases hq
          · rw [hv] at hq; exact (Option.some.injEq _ _ ▸ hq).symm ▸ rfl
        subst hvu
        exact ih _ _ hrest (keystroke_input_step_wf _ _ v hu
          (keystroke_input_step_wf s sl v hu hw))

theorem keystroke_eof_flush_one_wf (s : KStream) (hw : FifoWF s.fifo) :
    FifoWF (keystroke_eof_flush_one s).fifo := by
  unfold keystroke_eof_flush_one
  split <;>
    first
      | exact hw
      | exact keystroke_put_other_wf _ _ _ _ _ (by decide) (by decide) hw

theorem keystroke_eof_signal_wf (s : KStream) (hw : FifoWF s.fifo) :
    FifoWF (keystroke_eof_signal s).fifo := by
  unfold keystroke_eof_signal keystroke_eof_flush
  refine keystroke_eof_flush_one_wf _ (keystroke_eof_flush_one_wf _ ?_)
  split_ifs
  · exact keystroke_put_other_wf _ _ _ _ _ (by decide) (by decide) hw
  · exact hw

theorem keystroke_input_wf (s : KStream) (bytes : Option (List Nat)) (w : Bool)
    (hb : ∀ bs, bytes = some bs → ∀ b ∈ bs, b < 0x100) (hw : FifoWF s.fifo) :
    FifoWF (keystroke_input s bytes w).1.fifo := by
  unfold keystroke_input
  cases bytes with
  | none =>
      simp only []
      split_ifs <;>
        exact keystroke_input_loop_wf _ _ _ (by simp) (keystroke_eof_signal_wf s hw)
  | some bs =>
      simp only []
      split_ifs <;>
        refine keystroke_input_loop_wf _ _ _ ?_ hw <;>
        first
          | simp
          | exact hb bs rfl

theorem land_compound_eq_zero (b : Nat) (h : b < 0x80) : b &&& kf_compound = 0 :=
  land_0x80_eq_zero b h

theorem keystroke_get_simple (s : KStream) (b : Nat) (rest : List Nat)
    (hb : b < 0x80) (hfifo : s.fifo = b :: rest) :
    keystroke_get s = some ({ s with fifo := rest },
      { type := ks_char, value := b, flags := 0, len := 1, buf := [b] }) := by
  unfold keystroke_get
  rw [hfifo]
  simp only [if_pos (land_compound_eq_zero b hb)]

theorem keystroke_get_comp (s : KStream) (br tr : Bool) (ty : Nat) (p rest' : List Nat)
    (h1 : 1 ≤ ty) (h2 : ty ≤ 4)
    (hchar : ty = ks_char → br = false ∧ tr = false ∧ ∃ v, 0x80 ≤ v ∧ v < 0x100 ∧ p = [v])
    (hfifo : s.fifo = headerOf br tr ty :: p.length :: (p ++ rest')) :
    keystroke_get s = none ∨
    ∃ k, keystroke_get s = some ({ s with fifo := rest' }, k) ∧ k.type = ty ∧
      (ty = ks_char → charWF k) := by
  have hc := headerOf_compound br tr ty h1 h2
  have hty2 := headerOf_type br tr ty h1 h2
  have hfl := headerOf_flags br tr ty h1 h2
  have hlen : ¬ (p ++ rest').length < p.length := by simp
  unfold keystroke_get
  rw [hfifo]
  simp only [if_neg hc, if_neg hlen, List.take_left, List.drop_left, hty2, hfl]
  interval_cases ty
  · obtain ⟨hbr, htr, v, hv1, hv2, hp⟩ := hchar rfl
    subst hbr
    subst htr
    subst hp
    right
    refine ⟨{ type := 1, value := v, flags := 0, len := 1, buf := [v] }, ?_, rfl,
      fun _ => ⟨rfl, rfl, hv2, rfl⟩⟩
    simp [ks_null, ks_char, ks_esc, ks_csi, ks_iac, flagsOf]
  · rcases p with _ | ⟨a, p2⟩
    · right
      refine ⟨{ type := 2, value := 0, flags := flagsOf br tr, len := 0, buf := [] },
        ?_, rfl, fun hq => absurd hq (by decide)⟩
      simp [ks_null, ks_char, ks_esc, flagsOf]
    · rcases p2 with _ | ⟨a2, p3⟩
      · right
        refine ⟨{ type := 2, value := a, flags := flagsOf br tr, len := 1, buf := [a] },
          ?_, rfl, fun hq => absurd hq (by decide)⟩
        simp [ks_null, ks_char, ks_esc, flagsOf]
      · left
        simp [ks_null, ks_char, ks_esc]
  · rcases p with _ | ⟨a, p2⟩
    · right
      refine ⟨{ type := 3, value := 0, flags := flagsOf br tr, len := 0, buf := [0] },
        ?_, rfl, fun hq => absurd hq (by decide)⟩
      simp [ks_null, ks_char, ks_esc, ks_csi, flagsOf]
    · right
      refine ⟨{ type := 3, value := (a :: p2).getLastD 0, flags := flagsOf br tr
                len := (a :: p2).length - 1, buf := (a :: p2).dropLast ++ [0] },
              ?_, rfl, fun hq => absurd hq (by decide)⟩
      simp [ks_null, ks_char, ks_esc, ks_csi, flagsOf]
  · right
    refine ⟨{ type := 4, value := p.headD 0, flags := flagsOf br tr, len := p.length
              buf := p },
            ?_, rfl, fun hq => absurd hq (by decide)⟩
    simp [ks_null, ks_char, ks_esc, ks_csi, ks_iac, flagsOf]

theorem keystroke_fetch_go_charWF (fuel : Nat) :
    ∀ (s : KStream) (evs : List Keystroke), FifoWF s.fifo →
      keystroke_fetch_go fuel s = some evs →
      ∀ ev ∈ evs, ev.type = ks_char → charWF ev := by
  induction fuel with
  | zero =>
      intro s evs hw hf ev hev hty
      unfold keystroke_fetch_go at hf
      split_ifs at hf
      cases hf
      simp at hev
  | succ n ih =>
      intro s evs hw hf ev hev hty
      unfold keystroke_fetch_go at hf
      rcases hqe : s.fifo with _ | ⟨b, rest⟩
      · have hg : keystroke_get s = some (s,
            { type := ks_null, value := if s.eof_met then knull_eof else knull_not_eof
              flags := 0, len := 0, buf := [] }) := by
          unfold keystroke_get
          rw [hqe]
        rw [hg] at hf
        simp at hf
        subst hf
        simp at hev
      · rw [hqe] at hw
        cases hw with
        | simple b2 rest3 hb hr =>
            have hg := keystroke_get_simple s b rest hb hqe
            rw [hg] at hf
            simp only [ks_null, ks_char] at hf
            rcases hrec : keystroke_fetch_go n { s with fifo := rest } with _ | ks
            · rw [hrec] at hf
              simp at hf
            · rw [hrec] at hf
              rw [if_neg (by decide)] at hf
              simp only [Option.some.injEq] at hf
              subst hf
              rcases List.mem_cons.1 hev with rfl | hev2
              · exact ⟨rfl, rfl, show b < 0x100 by omega, rfl⟩
              · exact ih _ ks hr hrec ev hev2 hty
        | comp br tr ty p rest2 h1 h2 h3 hchar hr =>
            rcases keystroke_get_comp s br tr ty p rest2 h1 h2 hchar hqe with
              hnone | ⟨k, hg, hkty, hkc⟩
            · rw [hnone] at hf
              cases hf
            · rw [hg] at hf
              simp only [] at hf
              have hne : ¬ k.type = ks_null := by
                rw [hkty]
                intro hq
                exact absurd (hq ▸ h1) (by decide)
              rw [if_neg hne] at hf
              rcases hrec : keystroke_fetch_go n { s with fifo := rest2 } with _ | ks
              · rw [hrec] at hf
                simp at hf
              · rw [hrec] at hf
                simp only [Option.some.injEq] at hf
                subst hf
                rcases List.mem_cons.1 hev with rfl | hev2
                · exact hkc (hkty.symm.trans hty)
                · exact ih _ ks hr hrec ev hev2 hty

theorem runCalls_wf (calls : List (Option (List Nat) × Bool)) :
    ∀ s : KStream, (∀ cl ∈ calls, ∀ bs, cl.1 = some bs → ∀ b ∈ bs, b < 0x100) →
      FifoWF s.fifo → FifoWF (runCalls s calls).fifo := by
  induction calls with
  | nil => intro s _ hw; exact hw
  | cons cl rest ih =>
      intro s hb hw
      exact ih _ (fun c hc => hb c (List.mem_cons_of_mem _ hc))
        (keystroke_input_wf s cl.1 cl.2 (hb cl (List.mem_cons_self _ _)) hw)

theorem keystroke_put_char_get (s : KStream) (u : Nat) (hu : u < 0x100)
    (hf : s.fifo = []) :
    ∃ s2, keystroke_get (keystroke_put_char s u) =
        some (s2, { type := ks_char, value := u, flags := 0, len := 1, buf := [u] }) ∧
      s2.fifo = [] := by
  unfold keystroke_put_char
  split_ifs with h8
  · refine ⟨{ s with fifo := [] }, ?_, rfl⟩
    rw [hf]
    show keystroke_get { s with fifo := [u] } = _
    unfold keystroke_get
    simp only []
    have hc : u &&& kf_compound = 0 := land_0x80_eq_zero u h8
    rw [if_pos hc]
  · rw [beBytes_byte u hu]
    refine ⟨{ s with fifo := [] }, ?_, rfl⟩
    have he : keystroke_put s ks_char false (fun i => [u].getD i 0) [u].length
        = { s with fifo := [kf_compound ||| 0 ||| ks_char, 1, u] } := by
      unfold keystroke_put
      rw [if_neg (by simp [keystroke_max_len])]
      rw [hf]
      rfl
    rw [he]
    unfold keystroke_get
    (try simp only [])
    rw [if_neg (by decide : ¬ ((kf_compound ||| 0 ||| ks_char) &&& kf_compound = 0))]
    rw [if_neg (show ¬ ([u].length < 1) by simp)]
    (try simp only [])
    rw [if_neg (by decide : ¬ ((kf_compound ||| 0 ||| ks_char) &&& kf_type_mask = ks_null))]
    rw [if_pos (by decide : (kf_compound ||| 0 ||| ks_char) &&& kf_type_mask = ks_char)]
    rw [if_pos (by decide :
      (kf_compound ||| 0 ||| ks_char) &&& (kf_broken ||| kf_truncated) = 0)]
    rw [if_neg (show ¬ ((1 : Nat) = 0 ∨ 4 < 1) by decide)]
    simp [kf_compound, ks_char, kf_type_mask, kf_broken, kf_truncated]
    decide

/-! ## Claims -/

/-- C1: code-bug evidence.  For input `1B 5B 33` then EOF, the claim (and the
source's own record documentation, which says the last byte of a `ks_csi`
record is always the terminator, a NUL when EOF was hit, and
`keystroke_put_csi`'s comment, which says it plants that last character)
demands the event `csi / value 0 / broken / len 1 / buf [33 00]`.  The EOF
flush calls `keystroke_put_csi` without planting the NUL in `in.raw`, so the
record payload is just the parameter byte and fetch misreads it as the
terminator: the event actually is `csi / value 0x33 / broken / len 0 /
buf [00]`. -/
theorem c1_eof_csi_divergence :
    keystroke_fetch_all (runFreshEof [0x1B, 0x5B, 0x33]) =
      some [{ type := ks_csi, value := 0x33, flags := kf_broken, len := 0, buf := [0] }] :=
  rfl

/-- C2: code-bug evidence.  Stealing the well-formed CSI `1B 5B 33 7E` gives
an event with `len = 1` and the parameter byte at `buf 0`, but the trailing
NUL is written at index `len + 1 = 2` while index `len = 1` is left
untouched (`none`): the claim (and the source's own comment, which says the
escape parameters are NUL terminated in the keystroke buffer) demands the
NUL directly after the parameters, at index `len`. -/
theorem c2_steal_csi_nul_gap :
    ((keystroke_input (keystroke_stream_new 0) (some [0x1B, 0x5B, 0x33, 0x7E]) true).2).map
        (fun k => (k.type, k.value, k.flags, k.len, k.buf 0, k.buf 1, k.buf 2)) =
      some (ks_esc, 0x7E, 0, 1, some 0x33, none, some 0) :=
  rfl

/-- C3: chunk invariance.  For every byte sequence and every partition of it
into consecutive chunks, feeding the chunks in order (no steal slot) and then
the EOF signal produces, via repeated fetch, exactly the same event sequence
as feeding the whole sequence as a single chunk followed by EOF.  Stated for
a fresh stream with an arbitrary configured CSI byte. -/
theorem c3_chunk_invariance (c : Nat) (chunks : List (List Nat)) :
    keystroke_fetch_all
        (keystroke_input (runChunks (keystroke_stream_new c) chunks) none false).1 =
      keystroke_fetch_all
        (keystroke_input
          (keystroke_input (keystroke_stream_new c) (some chunks.flatten) false).1
          none false).1 := by
  rw [runChunks_eq_join chunks (keystroke_stream_new c) rfl rfl]

/-- C4: for input `1B 5B FF FB 01 33 7E` on a fresh stream, fetch yields
exactly the IAC event `iac / 0xFB / 0 / 2 / [FB 01]` followed by the CSI
event `csi / 0x7E / 0 / 1 / [33]` (the CSI buffer carries its NUL
terminator after the `len = 1` parameter bytes): the IAC command
interrupting the CSI is emitted first and the CSI parses as if the IAC
bytes were absent. -/
theorem c4_iac_inside_csi :
    keystroke_fetch_all (runFresh [0x1B, 0x5B, 0xFF, 0xFB, 0x01, 0x33, 0x7E]) =
      some [{ type := ks_iac, value := 0xFB, flags := 0, len := 2, buf := [0xFB, 0x01] },
            { type := ks_csi, value := 0x7E, flags := 0, len := 1, buf := [0x33, 0] }] :=
  rfl

/-- C5: for input `41 FF FF 42` on a fresh stream, the IAC IAC pair decodes
to the literal byte 0xFF, stored as a compound char record (FIFO bytes
`81 01 FF` between the two simple bytes), and fetch yields exactly three
char events with values 0x41, 0xFF, 0x42, each with flags 0 and len 1. -/
theorem c5_iac_iac_literal :
    (runFresh [0x41, 0xFF, 0xFF, 0x42]).fifo = [0x41, 0x81, 0x01, 0xFF, 0x42] ∧
    keystroke_fetch_all (runFresh [0x41, 0xFF, 0xFF, 0x42]) =
      some [{ type := ks_char, value := 0x41, flags := 0, len := 1, buf := [0x41] },
            { type := ks_char, value := 0xFF, flags := 0, len := 1, buf := [0xFF] },
            { type := ks_char, value := 0x42, flags := 0, len := 1, buf := [0x42] }] :=
  ⟨by rfl, by rfl⟩

/-- C6: for a stream collecting a CSI (empty FIFO, not at EOF, no IAC
pending) that receives a terminator byte in 0x40..0x7F: when the accumulated
length (parameters plus terminator, `in.len + 1`) exceeds `keystroke_max_len`
the emitted record carries the truncated flag and its payload is the first
`keystroke_max_len` accumulated bytes with the last one overwritten by the
terminator, so fetch recovers the terminator as the event value; when the
accumulated length is at most `keystroke_max_len` the record is not marked
truncated. -/
theorem c6_csi_truncation (s : KStream) (u : Nat)
    (hf : s.fifo = []) (he : s.eof_met = false) (hcs : s.in_.state = .kst_csi)
    (hiac : s.iac = false) (h1 : 0x40 ≤ u) (h2 : u ≤ 0x7F) :
    (keystroke_input s (some [u]) false).1.fifo =
      (if keystroke_max_len ≤ s.in_.len then
        (0x80 ||| (ks_csi ||| kf_truncated)) :: keystroke_max_len ::
          ((List.range (keystroke_max_len - 1)).map s.in_.raw ++ [u])
      else
        (0x80 ||| ks_csi) :: (s.in_.len + 1) ::
          ((List.range s.in_.len).map s.in_.raw ++ [u])) ∧
    (∃ r ev, keystroke_get (keystroke_input s (some [u]) false).1 = some (r, ev) ∧
      ev.type = ks_csi ∧ ev.value = u ∧
      ev.flags = (if keystroke_max_len ≤ s.in_.len then kf_truncated else 0)) := by
  have hdata : (if s.eof_met then ([] : List Nat) else [u]) = [u] := by rw [he]; rfl
  have hnorm := keystroke_input_normal_csi_term { s with steal_this := false } u hcs rfl h1 h2
  have hu255 : ¬ u = tn_IAC := by
    intro hq
    rw [hq] at h2
    exact absurd h2 (by decide)
  have hstep := (keystroke_input_step_normal { s with steal_this := false } .noSlot u hiac
      hu255).trans hnorm
  have hinput : (keystroke_input s (some [u]) false).1 =
      (keystroke_input_loop { s with steal_this := false } .noSlot [u]).1 := by
    rw [keystroke_input_some_false s [u], hdata]
  have hloopf : (keystroke_input_loop { s with steal_this := false } .noSlot [u]).1.fifo =
      (keystroke_put_csi
        { s with steal_this := false
                 in_ := { state := s.in_.state, len := s.in_.len + 1
                          raw := Function.update s.in_.raw
                            (if keystroke_max_len ≤ s.in_.len then keystroke_max_len - 1
                             else s.in_.len) u } } u).fifo := by
    simp [keystroke_input_loop, hstep]
  have hfifo : (keystroke_input s (some [u]) false).1.fifo =
      (if keystroke_max_len ≤ s.in_.len then
        (0x80 ||| (ks_csi ||| kf_truncated)) :: keystroke_max_len ::
          ((List.range (keystroke_max_len - 1)).map s.in_.raw ++ [u])
      else
        (0x80 ||| ks_csi) :: (s.in_.len + 1) ::
          ((List.range s.in_.len).map s.in_.raw ++ [u])) := by
    rw [hinput, hloopf, keystroke_put_csi_fifo _ u (by omega)]
    by_cases hK : keystroke_max_len ≤ s.in_.len
    · simp only [hf, List.nil_append, if_pos hK,
        if_pos (show keystroke_max_len < s.in_.len + 1 from by omega)]
      exact congrArg _ (congrArg _ (range_map_update s.in_.raw 7 u))
    · simp only [hf, List.nil_append, if_neg hK,
        if_neg (show ¬ keystroke_max_len < s.in_.len + 1 from by omega)]
      exact congrArg _ (congrArg _ (range_map_update s.in_.raw s.in_.len u))
  refine ⟨hfifo, ?_⟩
  by_cases hK : keystroke_max_len ≤ s.in_.len
  · rw [if_pos hK] at hfifo
    have hget := keystroke_get_csi_record (keystroke_input s (some [u]) false).1 _
      keystroke_max_len _ (by decide) (by decide) (by simp [keystroke_max_len])
      (by decide) hfifo
    refine ⟨_, _, hget, rfl,
      getLastD_append_single ((List.range (keystroke_max_len - 1)).map s.in_.raw) u 0, ?_⟩
    rw [if_pos hK]
    exact (show ((0x80 ||| (ks_csi ||| kf_truncated)) &&& (kf_broken ||| kf_truncated)) =
      kf_truncated from by decide)
  · rw [if_neg hK] at hfifo
    have hget := keystroke_get_csi_record (keystroke_input s (some [u]) false).1 _
      (s.in_.len + 1) _ (by decide) (by decide) (by simp) (by omega) hfifo
    refine ⟨_, _, hget, rfl,
      getLastD_append_single ((List.range s.in_.len).map s.in_.raw) u 0, ?_⟩
    rw [if_neg hK]
    exact (show ((0x80 ||| ks_csi) &&& (kf_broken ||| kf_truncated)) = 0 from by decide)

/-- C6 witness: the hypotheses hold for a concrete overlong CSI ended by
`~` (0x7E). -/
theorem c6_csi_truncation_witness :
    (c6_example_stream.fifo = [] ∧ c6_example_stream.eof_met = false ∧
     c6_example_stream.in_.state = .kst_csi ∧ c6_example_stream.iac = false ∧
     0x40 ≤ 0x7E ∧ 0x7E ≤ 0x7F) ∧
    ((keystroke_input c6_example_stream (some [0x7E]) false).1.fifo =
      (if keystroke_max_len ≤ c6_example_stream.in_.len then
        (0x80 ||| (ks_csi ||| kf_truncated)) :: keystroke_max_len ::
          ((List.range (keystroke_max_len - 1)).map c6_example_stream.in_.raw ++ [0x7E])
      else
        (0x80 ||| ks_csi) :: (c6_example_stream.in_.len + 1) ::
          ((List.range c6_example_stream.in_.len).map c6_example_stream.in_.raw ++ [0x7E])) ∧
    (∃ r ev,
      keystroke_get (keystroke_input c6_example_stream (some [0x7E]) false).1 =
        some (r, ev) ∧
      ev.type = ks_csi ∧ ev.value = 0x7E ∧
      ev.flags =
        (if keystroke_max_len ≤ c6_example_stream.in_.len then kf_truncated else 0))) :=
  ⟨⟨rfl, rfl, rfl, rfl, by decide, by decide⟩,
   c6_csi_truncation c6_example_stream 0x7E rfl rfl rfl rfl (by decide) (by decide)⟩

/-- C7: over any sequence of ingest calls on a fresh stream (any CSI byte,
data or EOF, with or without a steal slot), no byte is ever stored at an
index at or beyond `keystroke_max_len` of `in.raw` or `pushed_in.raw` (the
cells there keep their initial zero), while the counters can grow beyond
`keystroke_max_len`: after `1B 5B` plus twelve parameter bytes `in.len` is
12, and after an additional `FF FB` (IAC WILL pushing the CSI aside)
`pushed_in.len` is 12. -/
theorem c7_bounded_raw (c : Nat) (calls : List (Option (List Nat) × Bool)) (i : Nat)
    (hi : keystroke_max_len ≤ i) :
    (runCalls (keystroke_stream_new c) calls).in_.raw i = 0 ∧
    (runCalls (keystroke_stream_new c) calls).pushed_in.raw i = 0 ∧
    keystroke_max_len < (runFresh (0x1B :: 0x5B :: List.replicate 12 0x30)).in_.len ∧
    keystroke_max_len <
      (runFresh ((0x1B :: 0x5B :: List.replicate 12 0x30) ++ [0xFF, 0xFB])).pushed_in.len := by
  have h := runCalls_bounded calls (keystroke_stream_new c)
    ⟨fun _ _ => rfl, fun _ _ => rfl⟩
  exact ⟨h.1 i hi, h.2 i hi, by decide, by decide⟩

/-- C7 witness: instantiated at index `keystroke_max_len` after one
ordinary data call. -/
theorem c7_bounded_raw_witness :
    keystroke_max_len ≤ keystroke_max_len ∧
    ((runCalls (keystroke_stream_new 0) [(some [0x1B, 0x5B, 0x33], false)]).in_.raw
        keystroke_max_len = 0 ∧
     (runCalls (keystroke_stream_new 0) [(some [0x1B, 0x5B, 0x33], false)]).pushed_in.raw
        keystroke_max_len = 0 ∧
     keystroke_max_len < (runFresh (0x1B :: 0x5B :: List.replicate 12 0x30)).in_.len ∧
     keystroke_max_len <
       (runFresh ((0x1B :: 0x5B :: List.replicate 12 0x30) ++ [0xFF, 0xFB])).pushed_in.len) :=
  ⟨Nat.le_refl _,
   c7_bounded_raw 0 [(some [0x1B, 0x5B, 0x33], false)] keystroke_max_len (Nat.le_refl _)⟩

/-- C8: (1) for every input and every ingest call made with a steal slot,
the event written to the slot never carries a broken or truncated flag (its
flags are 0) and is never of type `ks_iac`; (2) a CSI that completes broken
or truncated while any slot state is current is not intercepted — the slot
is unchanged and a non-empty record is appended to the FIFO instead, so the
refused event is not lost; (3) the IAC dispatch never touches the slot. -/
theorem c8_steal_purity :
    (∀ (s : KStream) (bytes : Option (List Nat)) (k : StealKeystroke),
        (keystroke_input s bytes true).2 = some k → k.flags = 0 ∧ k.type ≠ ks_iac) ∧
    (∀ (s : KStream) (sl : SlotSt) (u : Nat),
        s.in_.state = .kst_csi → ¬ (0x20 ≤ u ∧ u ≤ 0x3F) →
        (u < 0x40 ∨ 0x7F < u ∨ keystroke_max_len ≤ s.in_.len) →
        (keystroke_input_normal s sl u).2.1 = sl ∧
        ∃ rec, rec ≠ [] ∧ (keystroke_input_normal s sl u).1.fifo = s.fifo ++ rec) ∧
    (∀ (s : KStream) (sl : SlotSt) (u : Nat), (keystroke_input_iac s sl u).2.1 = sl) :=
  ⟨keystroke_input_steal_pure, keystroke_input_normal_csi_refused,
   keystroke_input_iac_slot⟩

/-- C8 witness: the first part at the concrete steal of `41 42` (slot holds
the stolen char event, flags 0, type char), the second at an overlong CSI
terminated by `~` with an armed slot, the third at a fresh stream. -/
theorem c8_steal_purity_witness :
    ((keystroke_input (keystroke_stream_new 0) (some [0x41, 0x42]) true).2 =
        some (keystroke_steal_char 0x41) ∧
     (keystroke_steal_char 0x41).flags = 0 ∧ (keystroke_steal_char 0x41).type ≠ ks_iac) ∧
    (c6_example_stream.in_.state = .kst_csi ∧ ¬ (0x20 ≤ 0x7E ∧ 0x7E ≤ 0x3F) ∧
     (0x7E < 0x40 ∨ 0x7F < 0x7E ∨ keystroke_max_len ≤ c6_example_stream.in_.len) ∧
     ((keystroke_input_normal c6_example_stream .armed 0x7E).2.1 = .armed ∧
      ∃ rec, rec ≠ [] ∧
        (keystroke_input_normal c6_example_stream .armed 0x7E).1.fifo =
          c6_example_stream.fifo ++ rec)) ∧
    (keystroke_input_iac (keystroke_stream_new 0) .noSlot 0xFB).2.1 = .noSlot :=
  ⟨⟨rfl, c8_steal_purity.1 (keystroke_stream_new 0) (some [0x41, 0x42])
      (keystroke_steal_char 0x41) rfl⟩,
   ⟨rfl, by decide, by decide,
    c8_steal_purity.2.1 c6_example_stream .armed 0x7E rfl (by decide) (by decide)⟩,
   c8_steal_purity.2.2 (keystroke_stream_new 0) .noSlot 0xFB⟩

/-- C9: when the EOF signal arrives with the IAC-pending flag set while a
sequence is in progress (`in.state ≠ kst_null`), the broken zero-length IAC
event branch is skipped entirely — EOF processing is just the flush of the
interrupted sequence — and concretely after `1B 5B FF` plus EOF (a stream
with `iac = true` and `in.state = kst_csi`) fetch yields only the broken CSI
event and no IAC event. -/
theorem c9_pending_iac_discarded (s : KStream) (h : s.in_.state ≠ .kst_null) :
    keystroke_eof_signal s =
      keystroke_eof_flush { s with eof_met := true, steal_this := false } ∧
    (runFresh [0x1B, 0x5B, 0xFF]).iac = true ∧
    (runFresh [0x1B, 0x5B, 0xFF]).in_.state = .kst_csi ∧
    keystroke_fetch_all (runFreshEof [0x1B, 0x5B, 0xFF]) =
      some [{ type := ks_csi, value := 0, flags := kf_broken, len := 0, buf := [0] }] := by
  refine ⟨?_, rfl, rfl, rfl⟩
  unfold keystroke_eof_signal
  exact congrArg keystroke_eof_flush (if_neg (fun hc => h hc.2))

/-- C9 witness: the hypothesis holds for the stream reached by `1B 5B FF`. -/
theorem c9_witness :
    (runFresh [0x1B, 0x5B, 0xFF]).in_.state ≠ .kst_null ∧
    (keystroke_eof_signal (runFresh [0x1B, 0x5B, 0xFF]) =
      keystroke_eof_flush { runFresh [0x1B, 0x5B, 0xFF] with
                            eof_met := true, steal_this := false } ∧
     (runFresh [0x1B, 0x5B, 0xFF]).iac = true ∧
     (runFresh [0x1B, 0x5B, 0xFF]).in_.state = .kst_csi ∧
     keystroke_fetch_all (runFreshEof [0x1B, 0x5B, 0xFF]) =
       some [{ type := ks_csi, value := 0, flags := kf_broken, len := 0, buf := [0] }]) :=
  ⟨by decide, c9_pending_iac_discarded (runFresh [0x1B, 0x5B, 0xFF]) (by decide)⟩

/-- C10: every `ks_char` event returned by fetch is well-formed.  Part one:
after any sequence of `keystroke_input` calls on a fresh stream (any chunks
of bytes, EOF signals and steal flags), every char event that fetch returns
has flags 0, len 1, a single-byte value below 0x100 and a payload holding
exactly that byte — the parser never writes a broken or truncated char
record to the FIFO.  Part two ties the value to the originating byte: for
any byte below 0x100, `keystroke_put_char` followed by `keystroke_get` on an
otherwise empty FIFO yields exactly the char event for that byte. -/
theorem c10_char_events_wellformed :
    (∀ (calls : List (Option (List Nat) × Bool)),
      (∀ cl ∈ calls, ∀ bs, cl.1 = some bs → ∀ b ∈ bs, b < 0x100) →
      ∀ evs, keystroke_fetch_all (runCalls (keystroke_stream_new 0) calls) = some evs →
        ∀ ev ∈ evs, ev.type = ks_char →
          ev.flags = 0 ∧ ev.len = 1 ∧ ev.value < 0x100 ∧ ev.buf = [ev.value]) ∧
    (∀ (s : KStream) (u : Nat), u < 0x100 → s.fifo = [] →
      ∃ s2, keystroke_get (keystroke_put_char s u) =
          some (s2, { type := ks_char, value := u, flags := 0, len := 1, buf := [u] }) ∧
        s2.fifo = []) := by
  constructor
  · intro calls hb evs hf ev hev hty
    exact keystroke_fetch_go_charWF _ _ evs
      (runCalls_wf calls _ hb FifoWF.nil) hf ev hev hty
  · exact keystroke_put_char_get

/-- Witness for C10 at the concrete input 41 FF FF 42 (one chunk, no steal):
the three fetched events are char 0x41, char 0xFF, char 0x42, all
well-formed; and putting the byte 0xFF on an empty fresh stream and getting
it back yields exactly the char event for 0xFF. -/
theorem c10_char_events_wellformed_witness :
    (∀ ev ∈ ([{ type := 1, value := 0x41, flags := 0, len := 1, buf := [0x41] },
              { type := 1, value := 0xFF, flags := 0, len := 1, buf := [0xFF] },
              { type := 1, value := 0x42, flags := 0, len := 1, buf := [0x42] }] :
        List Keystroke), ev.type = ks_char →
      ev.flags = 0 ∧ ev.len = 1 ∧ ev.value < 0x100 ∧ ev.buf = [ev.value]) ∧
    (∃ s2, keystroke_get (keystroke_put_char (keystroke_stream_new 0) 0xFF) =
        some (s2, { type := ks_char, value := 0xFF, flags := 0, len := 1, buf := [0xFF] }) ∧
      s2.fifo = []) := by
  constructor
  · exact c10_char_events_wellformed.1 [(some [0x41, 0xFF, 0xFF, 0x42], false)]
      (by intro cl hcl bs hbs
          simp only [List.mem_singleton] at hcl
          subst hcl
          simp only [Option.some.injEq] at hbs
          subst hbs
          decide)
      _ rfl
  · exact c10_char_events_wellformed.2 (keystroke_stream_new 0) 0xFF (by decide) rfl

end KeystrokeModel
